import Mathlib

/-!
Verification of the CacheLimiter component (src/common/cacheLimiter.go).

The Go code is a byte-budget admission controller built on a single
int64 counter updated with `atomic.AddInt64`:

  * `TryAddBytes(count, useRelaxedLimit)` optimistically adds `count`
    to the counter and keeps the addition iff the new value is at or
    below the effective ceiling (`limit` when relaxed, otherwise
    `int64(float32(limit) * 0.75)`); on failure it adds `-count` back
    and reports false.
  * `WaitUntilAddBytes(ctx, count, pred)` loops over `TryAddBytes`,
    returning nil on success and `ctx.Err()` when the context is done,
    sleeping a random duration in between.
  * `RemoveBytes(count)` unconditionally adds `-count`.

The embedding below models Go int64 arithmetic as mathematical
integers reduced by `wrap64` (two's-complement wrap-around modulo
2^64), and models the single-precision float computation
`int64(float32(lim) * 0.75)` exactly over ℚ: `roundF32` is IEEE-754
binary32 round-to-nearest-even restricted to the normal range, which
is exact for every value this program feeds it (magnitudes are either
0 or within [3/4, 2^63], far from both the subnormal threshold 2^-126
and the overflow threshold 2^128, so no subnormal flushing and no
infinities arise on this domain).

The blocking loop `WaitUntilAddBytes` is modelled sequentially: the
caller-supplied predicate and the context-done signal are functions of
the iteration index, and a fuel bound caps how many iterations of the
(potentially infinite) loop are observed; `none` means the loop was
still running when the fuel ran out.
-/

/-- Two's-complement wrap-around of an integer into the int64 range,
exactly the effect of Go int64 arithmetic (`atomic.AddInt64`, unary
negation) on out-of-range results. -/
def wrap64 (n : ℤ) : ℤ :=
  (n + 9223372036854775808) % 18446744073709551616 - 9223372036854775808

/-- The int64 range: every value a Go int64 variable can hold. -/
def inRangeI64 (n : ℤ) : Prop :=
  -9223372036854775808 ≤ n ∧ n < 9223372036854775808

instance (n : ℤ) : Decidable (inRangeI64 n) := by
  unfold inRangeI64; infer_instance

/-- Fuel-driven floor of the base-2 logarithm on naturals; correct
whenever `n < 2 ^ fuel` (see `nlog2_spec`). Structural recursion so
the kernel can evaluate it. -/
def nlog2 : Nat → Nat → Nat
  | 0, _ => 0
  | fuel + 1, n => if n < 2 then 0 else nlog2 fuel (n / 2) + 1

/-- Floor of the base-2 logarithm of a natural number (0 for inputs 0
and 1). `n` itself is always sufficient fuel since `n < 2 ^ n`. -/
def natLog2 (n : Nat) : Nat := nlog2 n n

/-- Floor of the base-2 logarithm of a positive rational, computed
from the bit lengths of numerator and denominator plus one comparison
(see `intLog2_spec`). -/
def intLog2 (q : ℚ) : ℤ :=
  let e : ℤ := (natLog2 q.num.toNat : ℤ) - (natLog2 q.den : ℤ)
  if (2 : ℚ) ^ e ≤ q then e else e - 1

/-- Round a rational to the nearest integer, ties to even: the IEEE-754
default rounding attitude applied at integer granularity. -/
def rne (x : ℚ) : ℤ :=
  let f := ⌊x⌋
  let r := x - f
  if r < 1 / 2 then f
  else if 1 / 2 < r then f + 1
  else if f % 2 = 0 then f else f + 1

/-- Round a rational to the nearest IEEE-754 binary32 value
(round-to-nearest-even, 24-bit significand, unbounded exponent).
Faithful to Go `float32` arithmetic on all values this program
produces, which lie in the normal, non-overflowing range. -/
def roundF32 (q : ℚ) : ℚ :=
  if q = 0 then 0
  else
    let k : ℤ := intLog2 |q| - 23
    (rne (q / (2 : ℚ) ^ k) : ℚ) * (2 : ℚ) ^ k

/-- Truncate a rational toward zero, exactly the Go conversion from a
float value to int64 (for in-range values). -/
def ratTrunc (q : ℚ) : ℤ := q.num.tdiv q.den

/-- Limiter state: the Go struct `cacheLimiter` with its mutable
`value` (current committed bytes) and its `limit` set at
construction. -/
structure CacheLimiter where
  value : ℤ
  limit : ℤ
deriving DecidableEq

/-- `NewCacheLimiter(limit)`: zero counter, given limit. -/
def newCacheLimiter (limit : ℤ) : CacheLimiter :=
  { value := 0, limit := limit }

/-- `TryAddBytes` from the source: read `lim := c.limit`; under the
strict (non-relaxed) limit replace it by `int64(float32(lim) * 0.75)`;
atomically add `count` and keep the addition iff the new counter is at
most `lim`, otherwise atomically add `-count` back and report false.
Returns the reported boolean and the state after the call. -/
def tryAddBytes (c : CacheLimiter) (count : ℤ) (useRelaxedLimit : Bool) :
    Bool × CacheLimiter :=
  let lim0 := c.limit
  let strict := !useRelaxedLimit
  let lim := if strict
    then ratTrunc (roundF32 (roundF32 (lim0 : ℚ) * (3 / 4)))
    else lim0
  let v := wrap64 (c.value + count)
  if v ≤ lim then (true, { c with value := v })
  else (false, { c with value := wrap64 (v + wrap64 (-count)) })

/-- `RemoveBytes` from the source: `negativeDelta := -count` (int64
negation, hence wrapped) followed by an atomic add. -/
def removeBytes (c : CacheLimiter) (count : ℤ) : CacheLimiter :=
  let negativeDelta := wrap64 (-count)
  { c with value := wrap64 (c.value + negativeDelta) }

/-- The ceiling `TryAddBytes` admits against, as §4 of the spec
describes it: `limit` when relaxed admission applies, otherwise the
strict ceiling. -/
def effectiveCeiling (c : CacheLimiter) (useRelaxedLimit : Bool) : ℤ :=
  if useRelaxedLimit then c.limit
  else ratTrunc (roundF32 (roundF32 (c.limit : ℚ) * (3 / 4)))

/-- The strict-mode ceiling as the spec words it: the limit converted
to single-precision float, multiplied by 0.75 in single precision, and
truncated back to a signed integer. -/
def specStrictCeiling (limit : ℤ) : ℤ :=
  ratTrunc (roundF32 (roundF32 (limit : ℚ) * (3 / 4)))

/-- The relaxed-mode ceiling as the spec words it: exactly the limit. -/
def specRelaxedCeiling (limit : ℤ) : ℤ := limit

/-- The caller-supplied cancellation signal of `WaitUntilAddBytes`:
whether `ctx.Done()` has fired by the wait step of iteration `i`, and
the error value `ctx.Err()` reports once it has. -/
structure Ctx where
  done : Nat → Bool
  err : String

/-- The retry loop of `WaitUntilAddBytes`: at iteration `i` call
`TryAddBytes(count, preds i)`; on success return nil (modelled `none`
in the second component) with the committed state; otherwise select on
the context against the backoff timer — if the context is done return
`ctx.Err()`, else sleep and loop. `fuel` bounds the iterations
observed; `none` overall means the loop was still running. -/
def waitLoop (count : ℤ) (preds : Nat → Bool) (ctx : Ctx) :
    CacheLimiter → Nat → Nat → Option (CacheLimiter × Option String)
  | _, _, 0 => none
  | c, i, fuel + 1 =>
    let r := tryAddBytes c count (preds i)
    if r.1 then some (r.2, none)
    else if ctx.done i then some (r.2, some ctx.err)
    else waitLoop count preds ctx r.2 (i + 1) fuel

/-- `WaitUntilAddBytes`: run the retry loop from iteration 0. -/
def waitUntilAddBytes (c : CacheLimiter) (count : ℤ) (preds : Nat → Bool)
    (ctx : Ctx) (fuel : Nat) : Option (CacheLimiter × Option String) :=
  waitLoop count preds ctx c 0 fuel

/-- A constantly-false relaxed predicate, as in the spec's cancellation
example. -/
def predsFalse : Nat → Bool := fun _ => false

/-- An already-cancelled context: done from the first iteration on,
reporting Go's "context canceled" error value. -/
def ctxCancelled : Ctx := { done := fun _ => true, err := "context canceled" }

/-- One step of a client call sequence: a `TryAddBytes` with its
arguments, or a `RemoveBytes`. -/
inductive Op where
  | tryAdd : ℤ → Bool → Op
  | remove : ℤ → Op
deriving DecidableEq

/-- Run a sequence of calls against a limiter state. -/
def runOps (c : CacheLimiter) : List Op → CacheLimiter
  | [] => c
  | Op.tryAdd k b :: rest => runOps (tryAddBytes c k b).2 rest
  | Op.remove k :: rest => runOps (removeBytes c k) rest

/-- The bookkeeping sum of §8 of the spec: counts of the `TryAddBytes`
calls that returned true during the run, minus all `RemoveBytes`
counts, as an exact (unbounded) integer. -/
def committedMinusRemoved (c : CacheLimiter) : List Op → ℤ
  | [] => 0
  | Op.tryAdd k b :: rest =>
      (if (tryAddBytes c k b).1 then k else 0) +
        committedMinusRemoved (tryAddBytes c k b).2 rest
  | Op.remove k :: rest => -k + committedMinusRemoved (removeBytes c k) rest

/-- The backoff duration drawn between unsuccessful attempts, in
nanoseconds: `time.Duration(2 * float32(time.Second) * rand.Float32())`
with the random draw `r`; `time.Second` is 10^9 nanoseconds, the
product is evaluated in single precision left to right, and the
conversion to `time.Duration` (an int64) truncates. -/
def backoffNanos (r : ℚ) : ℤ :=
  ratTrunc (roundF32 (roundF32 ((2 : ℚ) * roundF32 (1000000000 : ℚ)) * r))

/-- The conclusion of the `WaitUntilAddBytes` contract, for a start
state `c`, request `count`, per-iteration relaxed predicate `preds`,
context `ctx` and fuel bound:
1. a nil (success) return happens only by an iteration whose
   `TryAddBytes` succeeded, and hands back exactly that committed
   state;
2. a non-nil return carries exactly the context's error value and
   leaves the counter untouched (the addition was never committed),
   and happens only once the context is done;
3. conversely, if some reachable iteration's `TryAddBytes` succeeds
   before the context is done, the call returns nil. -/
def WaitContract (c : CacheLimiter) (count : ℤ) (preds : Nat → Bool)
    (ctx : Ctx) (fuel : Nat) : Prop :=
  (∀ cf, waitUntilAddBytes c count preds ctx fuel = some (cf, none) →
    ∃ j, (tryAddBytes c count (preds j)).1 = true ∧
      cf = (tryAddBytes c count (preds j)).2) ∧
  (∀ cf e, waitUntilAddBytes c count preds ctx fuel = some (cf, some e) →
    e = ctx.err ∧ cf = c ∧ ∃ j, ctx.done j = true) ∧
  (∀ j, j < fuel → (tryAddBytes c count (preds j)).1 = true →
    (∀ k, k < j → ctx.done k = false) →
    ∃ cf, waitUntilAddBytes c count preds ctx fuel = some (cf, none))

/-! ### Arithmetic of the int64 wrap -/

theorem wrap64_idem (a : ℤ) : wrap64 (wrap64 a) = wrap64 a := by
  unfold wrap64; omega

theorem wrap64_add_left (a b : ℤ) : wrap64 (wrap64 a + b) = wrap64 (a + b) := by
  unfold wrap64; omega

theorem wrap64_add_right (a b : ℤ) : wrap64 (a + wrap64 b) = wrap64 (a + b) := by
  unfold wrap64; omega

theorem wrap64_eq_self (a : ℤ) (h : inRangeI64 a) : wrap64 a = a := by
  unfold wrap64 inRangeI64 at *; omega

theorem inRangeI64_wrap64 (a : ℤ) : inRangeI64 (wrap64 a) := by
  unfold wrap64 inRangeI64; omega

theorem wrap64_add_cancel (v k : ℤ) (h : inRangeI64 v) :
    wrap64 (wrap64 (v + k) + wrap64 (-k)) = v := by
  unfold wrap64 inRangeI64 at *; omega

/-! ### Basic shape lemmas for the three operations -/

theorem tryAddBytes_eq (c : CacheLimiter) (count : ℤ) (b : Bool) :
    tryAddBytes c count b =
      if wrap64 (c.value + count) ≤ effectiveCeiling c b
      then (true, { c with value := wrap64 (c.value + count) })
      else (false,
        { c with value := wrap64 (wrap64 (c.value + count) + wrap64 (-count)) }) := by
  cases b <;> simp [tryAddBytes, effectiveCeiling]

theorem tryAddBytes_fst_iff (c : CacheLimiter) (count : ℤ) (b : Bool) :
    (tryAddBytes c count b).1 = true ↔
      wrap64 (c.value + count) ≤ effectiveCeiling c b := by
  rw [tryAddBytes_eq]
  split <;> simp_all

theorem tryAddBytes_success_state (c : CacheLimiter) (count : ℤ) (b : Bool)
    (h : (tryAddBytes c count b).1 = true) :
    (tryAddBytes c count b).2 = { c with value := wrap64 (c.value + count) } := by
  rw [tryAddBytes_eq] at h ⊢
  split_ifs at h ⊢
  rfl

theorem tryAddBytes_fail_state (c : CacheLimiter) (count : ℤ) (b : Bool)
    (hv : inRangeI64 c.value) (h : (tryAddBytes c count b).1 = false) :
    (tryAddBytes c count b).2 = c := by
  rw [tryAddBytes_eq] at h ⊢
  split_ifs at h ⊢
  show ({ c with
        value := wrap64 (wrap64 (c.value + count) + wrap64 (-count)) } :
        CacheLimiter) = c
  rw [wrap64_add_cancel c.value count hv]

theorem tryAddBytes_limit (c : CacheLimiter) (count : ℤ) (b : Bool) :
    (tryAddBytes c count b).2.limit = c.limit := by
  rw [tryAddBytes_eq]; split <;> rfl

theorem removeBytes_limit (c : CacheLimiter) (count : ℤ) :
    (removeBytes c count).limit = c.limit := rfl

theorem removeBytes_value (c : CacheLimiter) (count : ℤ) :
    (removeBytes c count).value = wrap64 (c.value - count) := by
  show wrap64 (c.value + wrap64 (-count)) = wrap64 (c.value - count)
  rw [wrap64_add_right]; ring_nf

/-! ### The base-2 logarithm helpers -/

theorem nlog2_spec : ∀ (f n : ℕ), 1 ≤ n → n < 2 ^ f →
    2 ^ nlog2 f n ≤ n ∧ n < 2 ^ (nlog2 f n + 1) := by
  intro f
  induction f with
  | zero =>
    intro n h1 h2
    rw [pow_zero] at h2
    omega
  | succ f ih =>
    intro n h1 h2
    by_cases hn : n < 2
    · have hn1 : n = 1 := by omega
      subst hn1
      simp [nlog2]
    · have h2' : n / 2 < 2 ^ f := by
        rw [pow_succ] at h2
        omega
      have h1' : 1 ≤ n / 2 := by omega
      obtain ⟨ha, hb⟩ := ih (n / 2) h1' h2'
      have hstep : nlog2 (f + 1) n = nlog2 f (n / 2) + 1 := by
        simp [nlog2, hn]
      rw [hstep]
      rw [pow_succ] at hb
      simp only [pow_succ]
      generalize (2 : ℕ) ^ nlog2 f (n / 2) = A at ha hb ⊢
      omega

theorem natLog2_spec (n : ℕ) (h : 1 ≤ n) :
    2 ^ natLog2 n ≤ n ∧ n < 2 ^ (natLog2 n + 1) :=
  nlog2_spec n n h (Nat.lt_two_pow n)

theorem pow_nat_cast_q (m : ℕ) : ((2 ^ m : ℕ) : ℚ) = (2 : ℚ) ^ (m : ℤ) := by
  rw [zpow_natCast]
  push_cast
  ring

theorem intLog2_spec (q : ℚ) (hq : 0 < q) :
    (2 : ℚ) ^ intLog2 q ≤ q ∧ q < (2 : ℚ) ^ (intLog2 q + 1) := by
  have hnum : 0 < q.num := Rat.num_pos.mpr hq
  obtain ⟨hA1, hA2⟩ := natLog2_spec q.num.toNat (by omega)
  obtain ⟨hB1, hB2⟩ := natLog2_spec q.den q.den_pos
  set la := natLog2 q.num.toNat with hla
  set lb := natLog2 q.den with hlb
  have hb0 : (0 : ℚ) < (q.den : ℚ) := by
    have := q.den_pos
    positivity
  have hn : (q.num : ℚ) = (q.num.toNat : ℚ) := by
    exact_mod_cast congrArg (fun z : ℤ => (z : ℚ)) (Int.toNat_of_nonneg hnum.le).symm
  have hqB : q * (q.den : ℚ) = (q.num.toNat : ℚ) := by
    have hd : (q.num : ℚ) / (q.den : ℚ) = q := Rat.num_div_den q
    have hden : (q.den : ℚ) ≠ 0 := ne_of_gt hb0
    rw [← hn]
    calc q * (q.den : ℚ) = ((q.num : ℚ) / (q.den : ℚ)) * (q.den : ℚ) := by
          rw [hd]
      _ = (q.num : ℚ) := div_mul_cancel₀ _ hden
  have hA1q : (2 : ℚ) ^ (la : ℤ) ≤ (q.num.toNat : ℚ) := by
    rw [← pow_nat_cast_q]
    exact_mod_cast hA1
  have hA2q : (q.num.toNat : ℚ) < (2 : ℚ) ^ ((la : ℤ) + 1) := by
    rw [show ((la : ℤ) + 1) = ((la + 1 : ℕ) : ℤ) by push_cast; ring, ← pow_nat_cast_q]
    exact_mod_cast hA2
  have hB1q : (2 : ℚ) ^ (lb : ℤ) ≤ (q.den : ℚ) := by
    rw [← pow_nat_cast_q]
    exact_mod_cast hB1
  have hB2q : (q.den : ℚ) < (2 : ℚ) ^ ((lb : ℤ) + 1) := by
    rw [show ((lb : ℤ) + 1) = ((lb + 1 : ℕ) : ℤ) by push_cast; ring, ← pow_nat_cast_q]
    exact_mod_cast hB2
  set e : ℤ := (la : ℤ) - (lb : ℤ) with he
  have hupper : q < (2 : ℚ) ^ (e + 1) := by
    rw [← mul_lt_mul_right hb0, hqB]
    calc (q.num.toNat : ℚ) < (2 : ℚ) ^ ((la : ℤ) + 1) := hA2q
      _ = (2 : ℚ) ^ (e + 1) * (2 : ℚ) ^ (lb : ℤ) := by
        rw [← zpow_add₀ (by norm_num : (2 : ℚ) ≠ 0)]
        congr 1
        omega
      _ ≤ (2 : ℚ) ^ (e + 1) * (q.den : ℚ) :=
        mul_le_mul_of_nonneg_left hB1q (zpow_pos (by norm_num) _).le
  have hlower : (2 : ℚ) ^ (e - 1) < q := by
    rw [← mul_lt_mul_right hb0, hqB]
    calc (2 : ℚ) ^ (e - 1) * (q.den : ℚ)
        < (2 : ℚ) ^ (e - 1) * (2 : ℚ) ^ ((lb : ℤ) + 1) :=
        mul_lt_mul_of_pos_left hB2q (zpow_pos (by norm_num) _)
      _ = (2 : ℚ) ^ (la : ℤ) := by
        rw [← zpow_add₀ (by norm_num : (2 : ℚ) ≠ 0)]
        congr 1
        omega
      _ ≤ (q.num.toNat : ℚ) := hA1q
  have hunf : intLog2 q = if (2 : ℚ) ^ e ≤ q then e else e - 1 := rfl
  rw [hunf]
  by_cases hc : (2 : ℚ) ^ e ≤ q
  · rw [if_pos hc]
    exact ⟨hc, hupper⟩
  · rw [if_neg hc]
    constructor
    · exact hlower.le
    · rw [show e - 1 + 1 = e by ring]
      exact lt_of_not_le hc

theorem intLog2_eq_of (q : ℚ) (e : ℤ) (hq : 0 < q)
    (h1 : (2 : ℚ) ^ e ≤ q) (h2 : q < (2 : ℚ) ^ (e + 1)) : intLog2 q = e := by
  obtain ⟨g1, g2⟩ := intLog2_spec q hq
  by_contra hne
  rcases lt_or_gt_of_ne hne with hlt | hgt
  · have hle : (2 : ℚ) ^ (intLog2 q + 1) ≤ (2 : ℚ) ^ e :=
      zpow_le_zpow_right₀ (by norm_num) (by omega)
    linarith
  · have hle : (2 : ℚ) ^ (e + 1) ≤ (2 : ℚ) ^ intLog2 q :=
      zpow_le_zpow_right₀ (by norm_num) (by omega)
    linarith

/-! ### Round-to-nearest-even and the binary32 rounding bounds -/

theorem rne_bounds (x : ℚ) : x - 1 / 2 ≤ (rne x : ℚ) ∧ (rne x : ℚ) ≤ x + 1 / 2 := by
  have hf1 : (⌊x⌋ : ℚ) ≤ x := Int.floor_le x
  have hf2 : x < ⌊x⌋ + 1 := Int.lt_floor_add_one x
  simp only [rne]
  split_ifs <;> constructor <;> push_cast <;> linarith

theorem rne_intCast (n : ℤ) : rne (n : ℚ) = n := by
  simp only [rne, Int.floor_intCast, sub_self]
  norm_num

theorem roundF32_zero : roundF32 0 = 0 := by
  simp [roundF32]

theorem roundF32_pos_eq (q : ℚ) (hq : 0 < q) :
    roundF32 q =
      (rne (q / (2 : ℚ) ^ (intLog2 q - 23)) : ℚ) * (2 : ℚ) ^ (intLog2 q - 23) := by
  unfold roundF32
  rw [if_neg (ne_of_gt hq), abs_of_pos hq]

theorem roundF32_close (q : ℚ) (hq : 0 < q) :
    |roundF32 q - q| ≤ q / 16777216 := by
  obtain ⟨hs1, hs2⟩ := intLog2_spec q hq
  set e := intLog2 q with he
  set k : ℤ := e - 23 with hk
  have h2ne : (2 : ℚ) ≠ 0 := by norm_num
  have hkpos : (0 : ℚ) < (2 : ℚ) ^ k := zpow_pos (by norm_num) _
  set y : ℚ := q / (2 : ℚ) ^ k with hy
  have hq2 : y * (2 : ℚ) ^ k = q := div_mul_cancel₀ _ (ne_of_gt hkpos)
  obtain ⟨hr1, hr2⟩ := rne_bounds y
  have habs : |(rne y : ℚ) - y| ≤ 1 / 2 := abs_le.mpr ⟨by linarith, by linarith⟩
  have heq : roundF32 q - q = ((rne y : ℚ) - y) * (2 : ℚ) ^ k := by
    rw [roundF32_pos_eq q hq, ← he, ← hk, ← hy, sub_mul, hq2]
  rw [heq, abs_mul, abs_of_pos hkpos]
  have hb1 : |(rne y : ℚ) - y| * (2 : ℚ) ^ k ≤ 1 / 2 * (2 : ℚ) ^ k :=
    mul_le_mul_of_nonneg_right habs hkpos.le
  have hb2 : 1 / 2 * (2 : ℚ) ^ k = (2 : ℚ) ^ (e - 24) := by
    rw [hk, show (1 : ℚ) / 2 = (2 : ℚ) ^ (-1 : ℤ) by
      rw [zpow_neg, zpow_one]
      norm_num, ← zpow_add₀ h2ne]
    congr 1
    omega
  have hb3 : (2 : ℚ) ^ (e - 24) ≤ q / 16777216 := by
    have hsplit : (2 : ℚ) ^ (e - 24) = (2 : ℚ) ^ e * (2 : ℚ) ^ (-24 : ℤ) := by
      rw [← zpow_add₀ h2ne]
      congr 1
    have h24 : q / 16777216 = q * (2 : ℚ) ^ (-24 : ℤ) := by
      rw [zpow_neg, show ((24 : ℤ)) = ((24 : ℕ) : ℤ) from rfl, zpow_natCast]
      norm_num
      ring
    rw [hsplit, h24]
    exact mul_le_mul_of_nonneg_right hs1 (zpow_pos (by norm_num : (0 : ℚ) < 2) _).le
  linarith

theorem roundF32_le_of_pos (q : ℚ) (hq : 0 < q) :
    roundF32 q ≤ q + q / 16777216 := by
  have h := abs_le.mp (roundF32_close q hq)
  linarith [h.2]

theorem roundF32_ge_of_pos (q : ℚ) (hq : 0 < q) :
    q - q / 16777216 ≤ roundF32 q := by
  have h := abs_le.mp (roundF32_close q hq)
  linarith [h.1]

theorem roundF32_pos (q : ℚ) (hq : 0 < q) : 0 < roundF32 q := by
  have h := roundF32_ge_of_pos q hq
  nlinarith

theorem roundF32_nonneg (q : ℚ) (hq : 0 ≤ q) : 0 ≤ roundF32 q := by
  rcases eq_or_lt_of_le hq with h | h
  · rw [← h, roundF32_zero]
  · exact (roundF32_pos q h).le

theorem roundF32_eval_exact (q : ℚ) (e m : ℤ) (hq : 0 < q)
    (h1 : (2 : ℚ) ^ e ≤ q) (h2 : q < (2 : ℚ) ^ (e + 1))
    (hm : q = (m : ℚ) * (2 : ℚ) ^ (e - 23)) : roundF32 q = q := by
  have hE : intLog2 q = e := intLog2_eq_of q e hq h1 h2
  rw [roundF32_pos_eq q hq, hE]
  have hkpos : (0 : ℚ) < (2 : ℚ) ^ (e - 23) := zpow_pos (by norm_num) _
  have hyv : q / (2 : ℚ) ^ (e - 23) = (m : ℚ) := by
    rw [hm]
    field_simp
  rw [hyv, rne_intCast]
  exact hm.symm

/-! ### Truncation toward zero -/

theorem ratTrunc_eq_floor (q : ℚ) (h : 0 ≤ q) : ratTrunc q = ⌊q⌋ := by
  unfold ratTrunc
  rw [Int.tdiv_eq_ediv (Rat.num_nonneg.mpr h)
    (by exact_mod_cast Nat.zero_le q.den), Rat.floor_def]

theorem ratTrunc_le (q : ℚ) (h : 0 ≤ q) : (ratTrunc q : ℚ) ≤ q := by
  rw [ratTrunc_eq_floor q h]
  exact Int.floor_le q

theorem ratTrunc_nonneg (q : ℚ) (h : 0 ≤ q) : 0 ≤ ratTrunc q := by
  rw [ratTrunc_eq_floor q h]
  exact Int.floor_nonneg.mpr h

theorem ratTrunc_lt_int (q : ℚ) (n : ℤ) (h0 : 0 ≤ q) (h : q < (n : ℚ)) :
    ratTrunc q < n := by
  rw [ratTrunc_eq_floor q h0]
  exact Int.floor_lt.mpr h

theorem ratTrunc_intCast (n : ℤ) : ratTrunc (n : ℚ) = n := by
  unfold ratTrunc
  rw [Rat.num_intCast, Rat.den_intCast]
  simp

/-! ### Core numeric facts about the strict ceiling and the backoff -/

theorem strict_product_bounds (L : ℚ) (hL : 1 ≤ L) :
    0 ≤ roundF32 (roundF32 L * (3 / 4)) ∧ roundF32 (roundF32 L * (3 / 4)) < L := by
  have hL0 : 0 < L := lt_of_lt_of_le one_pos hL
  have ha1 := roundF32_le_of_pos L hL0
  have ha2 := roundF32_ge_of_pos L hL0
  have ha0 : 0 < roundF32 L := roundF32_pos L hL0
  have hp0 : 0 < roundF32 L * (3 / 4) := by positivity
  have hb1 := roundF32_le_of_pos (roundF32 L * (3 / 4)) hp0
  have hb2 := roundF32_ge_of_pos (roundF32 L * (3 / 4)) hp0
  constructor
  · linarith
  · linarith

theorem specStrictCeiling_lt (limit : ℤ) (h : 0 < limit) :
    specStrictCeiling limit < limit := by
  have hL : (1 : ℚ) ≤ (limit : ℚ) := by exact_mod_cast h
  obtain ⟨hb0, hbL⟩ := strict_product_bounds (limit : ℚ) hL
  unfold specStrictCeiling
  exact ratTrunc_lt_int _ _ hb0 hbL

theorem roundF32_fixed_lt_one (r : ℚ) (hfix : roundF32 r = r) (h0 : 0 < r)
    (h1 : r < 1) : r ≤ 1 - 1 / 16777216 := by
  obtain ⟨hs1, hs2⟩ := intLog2_spec r h0
  set e := intLog2 r with he
  have hele : e ≤ -1 := by
    by_contra hc
    push_neg at hc
    have h2e : (2 : ℚ) ^ (0 : ℤ) ≤ (2 : ℚ) ^ e :=
      zpow_le_zpow_right₀ (by norm_num) (by omega)
    rw [zpow_zero] at h2e
    linarith
  have h2ne : (2 : ℚ) ≠ 0 := by norm_num
  have hkpos : (0 : ℚ) < (2 : ℚ) ^ (e - 23) := zpow_pos (by norm_num) _
  set y : ℚ := r / (2 : ℚ) ^ (e - 23) with hy
  have hq2 : y * (2 : ℚ) ^ (e - 23) = r := div_mul_cancel₀ _ (ne_of_gt hkpos)
  have hry : (rne y : ℚ) = y := by
    have h := hfix
    rw [roundF32_pos_eq r h0, ← he, ← hy] at h
    exact mul_right_cancel₀ (ne_of_gt hkpos) (h.trans hq2.symm)
  have hy2 : y < (2 : ℚ) ^ (24 : ℤ) := by
    rw [hy, div_lt_iff hkpos]
    calc r < (2 : ℚ) ^ (e + 1) := hs2
      _ = (2 : ℚ) ^ (24 : ℤ) * (2 : ℚ) ^ (e - 23) := by
        rw [← zpow_add₀ h2ne]
        congr 1
        omega
  have h24q : (2 : ℚ) ^ (24 : ℤ) = 16777216 := by
    rw [show ((24 : ℤ)) = ((24 : ℕ) : ℤ) from rfl, zpow_natCast]
    norm_num
  have hmlt : (rne y : ℚ) < 16777216 := by
    rw [hry]
    rw [h24q] at hy2
    exact hy2
  have hmz : rne y < 16777216 := by exact_mod_cast hmlt
  have hm : (rne y : ℚ) ≤ 16777215 := by
    exact_mod_cast (by omega : rne y ≤ 16777215)
  have hm0 : (0 : ℚ) ≤ (rne y : ℚ) := by
    rw [hry, hy]
    positivity
  have hk24 : (2 : ℚ) ^ (e - 23) ≤ (2 : ℚ) ^ (-24 : ℤ) :=
    zpow_le_zpow_right₀ (by norm_num) (by omega)
  calc r = y * (2 : ℚ) ^ (e - 23) := hq2.symm
    _ = (rne y : ℚ) * (2 : ℚ) ^ (e - 23) := by rw [hry]
    _ ≤ 16777215 * (2 : ℚ) ^ (-24 : ℤ) :=
      mul_le_mul hm hk24 hkpos.le (by norm_num)
    _ = 1 - 1 / 16777216 := by
      rw [zpow_neg, show ((24 : ℤ)) = ((24 : ℕ) : ℤ) from rfl, zpow_natCast]
      norm_num

/-! ### Concrete evaluations of the binary32 model -/

theorem roundF32_hundred : roundF32 (100 : ℚ) = 100 := by
  apply roundF32_eval_exact (100 : ℚ) 6 13107200 (by norm_num)
  · rw [show ((6 : ℤ)) = ((6 : ℕ) : ℤ) from rfl, zpow_natCast]
    norm_num
  · rw [show ((6 : ℤ) + 1) = ((7 : ℕ) : ℤ) from by norm_num, zpow_natCast]
    norm_num
  · rw [show ((6 : ℤ) - 23) = -((17 : ℕ) : ℤ) from by norm_num, zpow_neg,
      zpow_natCast]
    norm_num

theorem roundF32_seventyFive : roundF32 (75 : ℚ) = 75 := by
  apply roundF32_eval_exact (75 : ℚ) 6 9830400 (by norm_num)
  · rw [show ((6 : ℤ)) = ((6 : ℕ) : ℤ) from rfl, zpow_natCast]
    norm_num
  · rw [show ((6 : ℤ) + 1) = ((7 : ℕ) : ℤ) from by norm_num, zpow_natCast]
    norm_num
  · rw [show ((6 : ℤ) - 23) = -((17 : ℕ) : ℤ) from by norm_num, zpow_neg,
      zpow_natCast]
    norm_num

theorem specStrictCeiling_hundred : specStrictCeiling 100 = 75 := by
  unfold specStrictCeiling
  rw [show ((100 : ℤ) : ℚ) = (100 : ℚ) by norm_num, roundF32_hundred,
    show (100 : ℚ) * (3 / 4) = 75 by norm_num, roundF32_seventyFive,
    show (75 : ℚ) = ((75 : ℤ) : ℚ) by norm_num, ratTrunc_intCast]

theorem roundF32_ten : roundF32 (10 : ℚ) = 10 := by
  apply roundF32_eval_exact (10 : ℚ) 3 10485760 (by norm_num)
  · rw [show ((3 : ℤ)) = ((3 : ℕ) : ℤ) from rfl, zpow_natCast]
    norm_num
  · rw [show ((3 : ℤ) + 1) = ((4 : ℕ) : ℤ) from by norm_num, zpow_natCast]
    norm_num
  · rw [show ((3 : ℤ) - 23) = -((20 : ℕ) : ℤ) from by norm_num, zpow_neg,
      zpow_natCast]
    norm_num

theorem roundF32_fifteenHalves : roundF32 (15 / 2 : ℚ) = 15 / 2 := by
  apply roundF32_eval_exact (15 / 2 : ℚ) 2 15728640 (by norm_num)
  · rw [show ((2 : ℤ)) = ((2 : ℕ) : ℤ) from rfl, zpow_natCast]
    norm_num
  · rw [show ((2 : ℤ) + 1) = ((3 : ℕ) : ℤ) from by norm_num, zpow_natCast]
    norm_num
  · rw [show ((2 : ℤ) - 23) = -((21 : ℕ) : ℤ) from by norm_num, zpow_neg,
      zpow_natCast]
    norm_num

theorem specStrictCeiling_ten : specStrictCeiling 10 = 7 := by
  unfold specStrictCeiling
  rw [show ((10 : ℤ) : ℚ) = (10 : ℚ) by norm_num, roundF32_ten,
    show (10 : ℚ) * (3 / 4) = 15 / 2 by norm_num, roundF32_fifteenHalves]
  rw [ratTrunc_eq_floor _ (by norm_num)]
  rw [Int.floor_eq_iff]
  constructor <;> norm_num

theorem roundF32_oneBillion : roundF32 (1000000000 : ℚ) = 1000000000 := by
  apply roundF32_eval_exact (1000000000 : ℚ) 29 15625000 (by norm_num)
  · rw [show ((29 : ℤ)) = ((29 : ℕ) : ℤ) from rfl, zpow_natCast]
    norm_num
  · rw [show ((29 : ℤ) + 1) = ((30 : ℕ) : ℤ) from by norm_num, zpow_natCast]
    norm_num
  · rw [show ((29 : ℤ) - 23) = ((6 : ℕ) : ℤ) from by norm_num, zpow_natCast]
    norm_num

theorem roundF32_twoBillion :
    roundF32 ((2 : ℚ) * roundF32 (1000000000 : ℚ)) = 2000000000 := by
  rw [roundF32_oneBillion, show (2 : ℚ) * 1000000000 = 2000000000 by norm_num]
  apply roundF32_eval_exact (2000000000 : ℚ) 30 15625000 (by norm_num)
  · rw [show ((30 : ℤ)) = ((30 : ℕ) : ℤ) from rfl, zpow_natCast]
    norm_num
  · rw [show ((30 : ℤ) + 1) = ((31 : ℕ) : ℤ) from by norm_num, zpow_natCast]
    norm_num
  · rw [show ((30 : ℤ) - 23) = ((7 : ℕ) : ℤ) from by norm_num, zpow_natCast]
    norm_num

theorem roundF32_half : roundF32 (1 / 2 : ℚ) = 1 / 2 := by
  apply roundF32_eval_exact (1 / 2 : ℚ) (-1) 8388608 (by norm_num)
  · rw [show ((-1 : ℤ)) = -((1 : ℕ) : ℤ) from rfl, zpow_neg, zpow_natCast]
    norm_num
  · rw [show ((-1 : ℤ) + 1) = (0 : ℤ) from by norm_num, zpow_zero]
    norm_num
  · rw [show ((-1 : ℤ) - 23) = -((24 : ℕ) : ℤ) from by norm_num, zpow_neg,
      zpow_natCast]
    norm_num

/-! ### The retry loop: limit preservation and result characterization -/

theorem wrap64_add_mid (a b s : ℤ) :
    wrap64 (a + wrap64 b + s) = wrap64 (a + b + s) := by
  unfold wrap64
  omega

theorem waitLoop_limit (count : ℤ) (preds : Nat → Bool) (ctx : Ctx) :
    ∀ (fuel i : Nat) (c : CacheLimiter) (p : CacheLimiter × Option String),
      waitLoop count preds ctx c i fuel = some p → p.1.limit = c.limit := by
  intro fuel
  induction fuel with
  | zero =>
    intro i c p h
    simp [waitLoop] at h
  | succ fuel ih =>
    intro i c p h
    simp only [waitLoop] at h
    split_ifs at h with h1 h2
    · simp only [Option.some.injEq] at h
      rw [← h]
      exact tryAddBytes_limit c count (preds i)
    · simp only [Option.some.injEq] at h
      rw [← h]
      exact tryAddBytes_limit c count (preds i)
    · have := ih (i + 1) (tryAddBytes c count (preds i)).2 p h
      rw [this]
      exact tryAddBytes_limit c count (preds i)

theorem waitLoop_success (count : ℤ) (preds : Nat → Bool) (ctx : Ctx) :
    ∀ (fuel i : Nat) (c : CacheLimiter), inRangeI64 c.value →
      ∀ cf, waitLoop count preds ctx c i fuel = some (cf, none) →
        ∃ j, (tryAddBytes c count (preds j)).1 = true ∧
          cf = (tryAddBytes c count (preds j)).2 := by
  intro fuel
  induction fuel with
  | zero =>
    intro i c hv cf h
    simp [waitLoop] at h
  | succ fuel ih =>
    intro i c hv cf h
    simp only [waitLoop] at h
    split_ifs at h with h1 h2
    · simp only [Option.some.injEq, Prod.mk.injEq] at h
      exact ⟨i, h1, h.1.symm⟩
    · simp at h
    · have hst : (tryAddBytes c count (preds i)).2 = c :=
        tryAddBytes_fail_state c count (preds i) hv (by simpa using h1)
      rw [hst] at h
      exact ih (i + 1) c hv cf h

theorem waitLoop_error (count : ℤ) (preds : Nat → Bool) (ctx : Ctx) :
    ∀ (fuel i : Nat) (c : CacheLimiter), inRangeI64 c.value →
      ∀ cf e, waitLoop count preds ctx c i fuel = some (cf, some e) →
        e = ctx.err ∧ cf = c ∧ ∃ j, ctx.done j = true := by
  intro fuel
  induction fuel with
  | zero =>
    intro i c hv cf e h
    simp [waitLoop] at h
  | succ fuel ih =>
    intro i c hv cf e h
    simp only [waitLoop] at h
    split_ifs at h with h1 h2
    · simp at h
    · simp only [Option.some.injEq, Prod.mk.injEq] at h
      have hst : (tryAddBytes c count (preds i)).2 = c :=
        tryAddBytes_fail_state c count (preds i) hv (by simpa using h1)
      obtain ⟨hcf, herr⟩ := h
      refine ⟨?_, ?_, ⟨i, h2⟩⟩
      · cases herr
        rfl
      · rw [← hcf, hst]
    · have hst : (tryAddBytes c count (preds i)).2 = c :=
        tryAddBytes_fail_state c count (preds i) hv (by simpa using h1)
      rw [hst] at h
      exact ih (i + 1) c hv cf e h

theorem waitLoop_complete (count : ℤ) (preds : Nat → Bool) (ctx : Ctx) :
    ∀ (fuel i : Nat) (c : CacheLimiter), inRangeI64 c.value →
      ∀ j, i ≤ j → j < i + fuel →
        (tryAddBytes c count (preds j)).1 = true →
        (∀ k, i ≤ k → k < j → ctx.done k = false) →
        ∃ cf, waitLoop count preds ctx c i fuel = some (cf, none) := by
  intro fuel
  induction fuel with
  | zero =>
    intro i c hv j hij hjf
    omega
  | succ fuel ih =>
    intro i c hv j hij hjf hsucc hnd
    simp only [waitLoop]
    by_cases h1 : (tryAddBytes c count (preds i)).1 = true
    · exact ⟨(tryAddBytes c count (preds i)).2, by rw [if_pos h1]⟩
    · have hij2 : i ≠ j := fun hh => h1 (hh ▸ hsucc)
      have hdi : ctx.done i = false := hnd i le_rfl (by omega)
      have hst : (tryAddBytes c count (preds i)).2 = c :=
        tryAddBytes_fail_state c count (preds i) hv (by simpa using h1)
      rw [if_neg h1, if_neg (by rw [hdi]; exact Bool.false_ne_true), hst]
      exact ih (i + 1) c hv j (by omega) (by omega) hsucc
        (fun k hk1 hk2 => hnd k (by omega) hk2)

/-! ### Call sequences: the counter as a wrapped running sum -/

theorem runOps_value :
    ∀ (ops : List Op) (c : CacheLimiter), c.value = wrap64 c.value →
      (runOps c ops).value = wrap64 (c.value + committedMinusRemoved c ops) := by
  intro ops
  induction ops with
  | nil =>
    intro c hc
    simp only [runOps, committedMinusRemoved, add_zero]
    exact hc
  | cons op rest ih =>
    intro c hc
    have hv : inRangeI64 c.value := hc ▸ inRangeI64_wrap64 c.value
    cases op with
    | tryAdd k b =>
      by_cases hs : (tryAddBytes c k b).1 = true
      · have h2 := tryAddBytes_success_state c k b hs
        simp only [runOps, committedMinusRemoved, hs, if_pos]
        have hNew : ({ c with value := wrap64 (c.value + k) } :
            CacheLimiter).value = wrap64 ({ c with value := wrap64 (c.value + k) } :
            CacheLimiter).value := (wrap64_idem _).symm
        rw [h2, ih _ hNew]
        rw [wrap64_add_left]
        congr 1
        ring
      · have h2 := tryAddBytes_fail_state c k b hv (by simpa using hs)
        simp only [runOps, committedMinusRemoved, hs, if_false]
        rw [h2, ih c hc]
        simp
    | remove k =>
      have hNew : (removeBytes c k).value = wrap64 (removeBytes c k).value := by
        rw [removeBytes_value, wrap64_idem]
      simp only [runOps, committedMinusRemoved]
      rw [ih _ hNew, removeBytes_value]
      rw [wrap64_add_left]
      ring_nf

theorem waitLoop_step_error (count : ℤ) (preds : Nat → Bool) (ctx : Ctx)
    (c : CacheLimiter) (i fuel : Nat)
    (h1 : (tryAddBytes c count (preds i)).1 = false)
    (h2 : ctx.done i = true) :
    waitLoop count preds ctx c i (fuel + 1) =
      some ((tryAddBytes c count (preds i)).2, some ctx.err) := by
  simp only [waitLoop]
  rw [if_neg (by simp [h1]), if_pos h2]

/-! ### The claims -/

/-- C1: for every limiter state and count, TryAddBytes commits the
addition and returns true exactly when the counter value after the
(int64) addition of count is at or below the effective ceiling (limit
when relaxed, the strict 0.75-of-limit ceiling otherwise); on success
the counter is the added value, and above the ceiling it returns
false. -/
theorem claim_C1_tryAdd_admission (c : CacheLimiter) (count : ℤ) (b : Bool) :
    ((tryAddBytes c count b).1 = true ↔
      wrap64 (c.value + count) ≤ effectiveCeiling c b) ∧
    ((tryAddBytes c count b).1 = true →
      (tryAddBytes c count b).2 = { c with value := wrap64 (c.value + count) }) :=
  ⟨tryAddBytes_fst_iff c count b, tryAddBytes_success_state c count b⟩

theorem claim_C1_witness :
    ((tryAddBytes ⟨5, 100⟩ 7 true).1 = true ↔
      wrap64 ((5 : ℤ) + 7) ≤ effectiveCeiling ⟨5, 100⟩ true) ∧
    ((tryAddBytes ⟨5, 100⟩ 7 true).1 = true →
      (tryAddBytes ⟨5, 100⟩ 7 true).2 =
        { value := wrap64 ((5 : ℤ) + 7), limit := 100 }) :=
  claim_C1_tryAdd_admission ⟨5, 100⟩ 7 true

/-- C2: a failed TryAddBytes has no net side effect: the optimistic
add followed by the rollback subtraction restores the counter to
exactly its pre-call value. -/
theorem claim_C2_failed_tryAdd_pure (c : CacheLimiter) (count : ℤ) (b : Bool)
    (hv : inRangeI64 c.value) (hf : (tryAddBytes c count b).1 = false) :
    (tryAddBytes c count b).2 = c :=
  tryAddBytes_fail_state c count b hv hf

theorem claim_C2_witness :
    inRangeI64 ((⟨100, 100⟩ : CacheLimiter)).value ∧
    (tryAddBytes ⟨100, 100⟩ 1 true).1 = false ∧
    (tryAddBytes ⟨100, 100⟩ 1 true).2 = ⟨100, 100⟩ :=
  ⟨by decide, by decide,
    claim_C2_failed_tryAdd_pure ⟨100, 100⟩ 1 true (by decide) (by decide)⟩

/-- C3 (amended): after any sequence of TryAddBytes and RemoveBytes
calls on a fresh limiter, the counter equals the sum of the
successfully committed counts minus the removed counts, reduced into
int64 range modulo 2^64 (two's-complement wrap-around); failed
TryAddBytes calls contribute nothing. The unwrapped equation of the
original claim fails once an int64 addition overflows, see the
counterexample. -/
theorem claim_C3_counter_wrapped_net (limit : ℤ) (ops : List Op) :
    (runOps (newCacheLimiter limit) ops).value =
      wrap64 (committedMinusRemoved (newCacheLimiter limit) ops) := by
  have h := runOps_value ops (newCacheLimiter limit)
    (by show (0 : ℤ) = wrap64 0; decide)
  rw [h]
  simp [newCacheLimiter]

theorem claim_C3_counterexample :
    ¬ ((runOps (newCacheLimiter 9223372036854775807)
          [Op.tryAdd 9223372036854775807 true,
            Op.tryAdd 9223372036854775807 true]).value =
        committedMinusRemoved (newCacheLimiter 9223372036854775807)
          [Op.tryAdd 9223372036854775807 true,
            Op.tryAdd 9223372036854775807 true]) := by
  decide

/-- C4: the wait loop returns nil exactly by an iteration whose
TryAddBytes succeeded (committing the count), the only error value it
can return is the context's own error with the counter untouched, and
in particular a full limiter with an already-cancelled context and a
constantly-false predicate yields the cancellation error without a
commit. -/
theorem claim_C4_wait_contract (c : CacheLimiter) (count : ℤ)
    (preds : Nat → Bool) (ctx : Ctx) (fuel : Nat) (hv : inRangeI64 c.value) :
    WaitContract c count preds ctx fuel ∧
      waitUntilAddBytes ⟨10, 10⟩ 1 predsFalse ctxCancelled 3 =
        some (⟨10, 10⟩, some "context canceled") := by
  constructor
  · exact ⟨fun cf h => waitLoop_success count preds ctx fuel 0 c hv cf h,
      fun cf e h => waitLoop_error count preds ctx fuel 0 c hv cf e h,
      fun j hj hs hnd => waitLoop_complete count preds ctx fuel 0 c hv j
        (Nat.zero_le j) (by omega) hs (fun k hk1 hk2 => hnd k hk2)⟩
  · have hceil : effectiveCeiling ⟨10, 10⟩ false = 7 := specStrictCeiling_ten
    have htry : tryAddBytes ⟨10, 10⟩ 1 (predsFalse 0) = (false, ⟨10, 10⟩) := by
      show tryAddBytes ⟨10, 10⟩ 1 false = (false, ⟨10, 10⟩)
      rw [tryAddBytes_eq, hceil]
      decide
    have hres := waitLoop_step_error 1 predsFalse ctxCancelled ⟨10, 10⟩ 0 2
      (by rw [htry]) rfl
    rw [htry] at hres
    exact hres

theorem claim_C4_witness :
    inRangeI64 ((⟨10, 10⟩ : CacheLimiter)).value ∧
    (WaitContract ⟨10, 10⟩ 1 predsFalse ctxCancelled 3 ∧
      waitUntilAddBytes ⟨10, 10⟩ 1 predsFalse ctxCancelled 3 =
        some (⟨10, 10⟩, some "context canceled")) :=
  ⟨by decide, claim_C4_wait_contract ⟨10, 10⟩ 1 predsFalse ctxCancelled 3 (by decide)⟩

/-- C5: the ceiling TryAddBytes admits against is exactly the
spec-described pair: the limit itself in relaxed mode, and in strict
mode the limit converted to single-precision float, multiplied by 0.75
in single precision and truncated back to a signed integer. -/
theorem claim_C5_ceilings (c : CacheLimiter) (count : ℤ) (b : Bool) :
    (tryAddBytes c count b).1 = true ↔
      wrap64 (c.value + count) ≤
        (if b then specRelaxedCeiling c.limit else specStrictCeiling c.limit) := by
  have h := tryAddBytes_fst_iff c count b
  cases b
  · simpa [effectiveCeiling, specStrictCeiling] using h
  · simpa [effectiveCeiling, specRelaxedCeiling] using h

/-- C6: for a limiter with a positive (int64) limit the relaxed
ceiling (the limit) is strictly greater than the strict ceiling
computed through single-precision 0.75 scaling, so strict mode always
reserves nonzero headroom. -/
theorem claim_C6_strict_below_relaxed (c : CacheLimiter)
    (h1 : 0 < c.limit) (h2 : c.limit < 9223372036854775808) :
    effectiveCeiling c false < effectiveCeiling c true := by
  show specStrictCeiling c.limit < c.limit
  exact specStrictCeiling_lt c.limit h1

theorem claim_C6_witness :
    0 < ((⟨0, 100⟩ : CacheLimiter)).limit ∧
    ((⟨0, 100⟩ : CacheLimiter)).limit < 9223372036854775808 ∧
    effectiveCeiling ⟨0, 100⟩ false < effectiveCeiling ⟨0, 100⟩ true :=
  ⟨by decide, by decide,
    claim_C6_strict_below_relaxed ⟨0, 100⟩ (by decide) (by decide)⟩

/-- C7 (amended): a negative count acts as a release only when the
decreased counter lands at or below the effective ceiling; then
TryAddBytes returns true with exactly the state RemoveBytes of the
absolute value would produce, but when the counter stays above the
ceiling the call returns false and leaves the counter unchanged,
unlike RemoveBytes. The original unconditional claim fails, see the
counterexample. -/
theorem claim_C7_negative_count (c : CacheLimiter) (count : ℤ) (b : Bool)
    (hv : inRangeI64 c.value) (hneg : count < 0) :
    (wrap64 (c.value + count) ≤ effectiveCeiling c b →
      tryAddBytes c count b = (true, removeBytes c (-count))) ∧
    (¬ wrap64 (c.value + count) ≤ effectiveCeiling c b →
      tryAddBytes c count b = (false, c)) := by
  have hrm : removeBytes c (-count) =
      { c with value := wrap64 (c.value + count) } := by
    show ({ c with value := wrap64 (c.value + wrap64 (-(-count))) } :
      CacheLimiter) = { c with value := wrap64 (c.value + count) }
    rw [neg_neg, wrap64_add_right]
  constructor
  · intro h
    rw [tryAddBytes_eq, if_pos h, hrm]
  · intro h
    rw [tryAddBytes_eq, if_neg h, wrap64_add_cancel c.value count hv]

theorem claim_C7_counterexample :
    (tryAddBytes ⟨100, 100⟩ (-1) false).1 = false ∧
    (tryAddBytes ⟨100, 100⟩ (-1) false).2 = ⟨100, 100⟩ ∧
    (removeBytes ⟨100, 100⟩ 1).value = 99 := by
  have hceil : effectiveCeiling ⟨100, 100⟩ false = 75 := specStrictCeiling_hundred
  have htry : tryAddBytes ⟨100, 100⟩ (-1) false = (false, ⟨100, 100⟩) := by
    rw [tryAddBytes_eq, hceil]
    decide
  exact ⟨by rw [htry], by rw [htry], by decide⟩

theorem claim_C7_witness :
    inRangeI64 ((⟨10, 100⟩ : CacheLimiter)).value ∧ (-3 : ℤ) < 0 ∧
    ((wrap64 ((10 : ℤ) + -3) ≤ effectiveCeiling ⟨10, 100⟩ true →
      tryAddBytes ⟨10, 100⟩ (-3) true = (true, removeBytes ⟨10, 100⟩ (-(-3)))) ∧
    (¬ wrap64 ((10 : ℤ) + -3) ≤ effectiveCeiling ⟨10, 100⟩ true →
      tryAddBytes ⟨10, 100⟩ (-3) true = (false, ⟨10, 100⟩))) :=
  ⟨by decide, by decide, claim_C7_negative_count ⟨10, 100⟩ (-3) true (by decide) (by decide)⟩

/-- C8: for every float32-representable random draw r in [0, 1) the
computed backoff duration 2 seconds times r is at least 0 and strictly
below 2 seconds (2000000000 nanoseconds). -/
theorem claim_C8_backoff_range (r : ℚ) (hfix : roundF32 r = r)
    (h0 : 0 ≤ r) (h1 : r < 1) :
    0 ≤ backoffNanos r ∧ backoffNanos r < 2000000000 := by
  unfold backoffNanos
  rw [roundF32_twoBillion]
  rcases eq_or_lt_of_le h0 with hz | hpos
  · rw [← hz, show (2000000000 : ℚ) * 0 = 0 by ring, roundF32_zero,
      show (0 : ℚ) = ((0 : ℤ) : ℚ) by norm_num, ratTrunc_intCast]
    norm_num
  · have hr1 : r ≤ 1 - 1 / 16777216 := roundF32_fixed_lt_one r hfix hpos h1
    have hu0 : (0 : ℚ) < 2000000000 * r := mul_pos (by norm_num) hpos
    have hb1 := roundF32_le_of_pos (2000000000 * r) hu0
    have hbu : roundF32 (2000000000 * r) < 2000000000 := by linarith
    have hb0q : (0 : ℚ) ≤ roundF32 (2000000000 * r) := (roundF32_pos _ hu0).le
    exact ⟨ratTrunc_nonneg _ hb0q,
      ratTrunc_lt_int _ _ hb0q (by exact_mod_cast hbu)⟩

theorem claim_C8_witness :
    roundF32 (1 / 2 : ℚ) = 1 / 2 ∧ (0 : ℚ) ≤ 1 / 2 ∧ (1 / 2 : ℚ) < 1 ∧
    (0 ≤ backoffNanos (1 / 2) ∧ backoffNanos (1 / 2) < 2000000000) :=
  ⟨roundF32_half, by norm_num, by norm_num,
    claim_C8_backoff_range (1 / 2) roundF32_half (by norm_num) (by norm_num)⟩

/-- C9: the limit field is immutable: TryAddBytes, RemoveBytes and the
WaitUntilAddBytes loop leave it exactly as constructed; only the value
field is ever mutated. -/
theorem claim_C9_limit_immutable (c : CacheLimiter) (count k cnt : ℤ) (b : Bool)
    (preds : Nat → Bool) (ctx : Ctx) (fuel : Nat) :
    (tryAddBytes c count b).2.limit = c.limit ∧
    (removeBytes c k).limit = c.limit ∧
    (match waitUntilAddBytes c cnt preds ctx fuel with
      | some p => p.1.limit = c.limit
      | none => True) := by
  refine ⟨tryAddBytes_limit c count b, removeBytes_limit c k, ?_⟩
  cases hw : waitUntilAddBytes c cnt preds ctx fuel with
  | none => trivial
  | some p => exact waitLoop_limit cnt preds ctx fuel 0 c p hw

/-- C10: a successful TryAddBytes followed by RemoveBytes of the same
count restores the state exactly, and RemoveBytes imposes no lower
bound: removing from a fresh limiter drives the counter negative
rather than clamping at zero. -/
theorem claim_C10_roundtrip_no_floor :
    (∀ (c : CacheLimiter) (count : ℤ) (b : Bool), inRangeI64 c.value →
      (tryAddBytes c count b).1 = true →
      removeBytes (tryAddBytes c count b).2 count = c) ∧
    (∀ (l k : ℤ), 0 < k → k ≤ 9223372036854775808 →
      (removeBytes (newCacheLimiter l) k).value < 0) := by
  constructor
  · intro c count b hv hs
    rw [tryAddBytes_success_state c count b hs]
    show ({ c with
      value := wrap64 (wrap64 (c.value + count) + wrap64 (-count)) } :
      CacheLimiter) = c
    rw [wrap64_add_cancel c.value count hv]
  · intro l k h1 h2
    rw [removeBytes_value]
    show wrap64 ((0 : ℤ) - k) < 0
    unfold wrap64
    omega

theorem claim_C10_witness :
    inRangeI64 ((⟨5, 100⟩ : CacheLimiter)).value ∧
    (tryAddBytes ⟨5, 100⟩ 7 true).1 = true ∧
    removeBytes (tryAddBytes ⟨5, 100⟩ 7 true).2 7 = ⟨5, 100⟩ ∧
    (0 : ℤ) < 4 ∧ (4 : ℤ) ≤ 9223372036854775808 ∧
    (removeBytes (newCacheLimiter 10) 4).value < 0 :=
  ⟨by decide, by decide,
    claim_C10_roundtrip_no_floor.1 ⟨5, 100⟩ 7 true (by decide) (by decide),
    by decide, by decide,
    claim_C10_roundtrip_no_floor.2 10 4 (by decide) (by decide)⟩
